import Mathlib

/-!
Shallow embedding of the event-log-to-positioned-snapshot engine found in
`output_animation_functions.py` — the functions `reshape_for_animations`
(snapshot sampler with synthetic exit rows) and `animate_activity_log`
(ranking, queue/resource layout and icon assignment, up to its
`return_df_only` output).

Simulation clock values and canvas coordinates, floating point in the source,
are modelled as integers; the pivot-table mean comparisons are stated with the
denominators cleared (`mean ts ≤ m ↔ ts.sum ≤ m * ts.length` for a non-empty
cell), so every definition evaluates by kernel reduction.  Missing values
(pandas `NaN`) are modelled with `Option`.  `sort_values` on a non-unique key
is an unstable sort in pandas, so any sorted permutation is a faithful model
of the final ordering; a structural insertion sort is used.
-/

/-- One record of the event log: columns `patient`, `pathway`, `event_type`,
`event`, `time` and (optionally) `resource_id`. -/
structure Entry where
  patient : Nat
  pathway : String
  event_type : String
  event : String
  time : Int
  resource_id : Option Int
deriving DecidableEq, Repr

/-- One row of `full_patient_df`: an event-log record stamped with the
sampled `minute` it describes. -/
structure SnapRow where
  entry : Entry
  minute : Nat
deriving DecidableEq, Repr

/-- One row of `event_position_df`: an event name with its anchor
coordinates. -/
structure Stage where
  event : String
  x : Int
  y : Int
deriving DecidableEq, Repr

/-- One row of `full_patient_df_plus_pos`: a snapshot row with its rank and
resolved final coordinates (`none` models `NaN`). -/
structure PosRow where
  row : SnapRow
  rank : Nat
  x_final : Option Int
  y_final : Option Int
deriving DecidableEq, Repr

/-- The `time` values collected in the pivot-table cell with index key
`(p, et, pw)` and column `ev`: `event_log.pivot_table(values="time",
index=["patient","event_type","pathway"], columns="event")` gathers, for each
key, the times of all its entries named `ev` (pandas aggregates a multiply
occupied cell by the mean of these values). -/
def cellTimes (log : List Entry) (p : Nat) (et pw ev : String) : List Int :=
  (log.filter fun r =>
    r.patient == p && r.event_type == et && r.pathway == pw && r.event == ev).map
      fun r => r.time

/-- The pivot-table index: one key per distinct `(patient, event_type,
pathway)` triple occurring in the log. -/
def pivotKeys (log : List Entry) : List (Nat × String × String) :=
  (log.map fun r => (r.patient, r.event_type, r.pathway)).dedup

/-- `pivoted_log[ev] <= m` for one pivot row: false on a null cell, otherwise
the mean of the cell is compared (denominator cleared). -/
def cellMeanLE (log : List Entry) (p : Nat) (et pw ev : String) (m : Nat) : Bool :=
  let ts := cellTimes log p et pw ev
  !ts.isEmpty && decide (ts.sum ≤ (m : Int) * ts.length)

/-- `pivoted_log[ev] >= m` for one pivot row: false on a null cell, otherwise
the mean of the cell is compared (denominator cleared). -/
def cellMeanGE (log : List Entry) (p : Nat) (et pw ev : String) (m : Nat) : Bool :=
  let ts := cellTimes log p et pw ev
  !ts.isEmpty && decide ((m : Int) * ts.length ≤ ts.sum)

/-- `pivoted_log[ev].isnull()` for one pivot row. -/
def cellIsNull (log : List Entry) (p : Nat) (et pw ev : String) : Bool :=
  (cellTimes log p et pw ev).isEmpty

/-- One pivot row passes the presence filter
`(pivoted_log['arrival'] <= minute) & ((pivoted_log['depart'] >= minute) |
(pivoted_log['depart'].isnull()))`. -/
def keyActive (log : List Entry) (k : Nat × String × String) (m : Nat) : Bool :=
  cellMeanLE log k.1 k.2.1 k.2.2 "arrival" m &&
    (cellMeanGE log k.1 k.2.1 k.2.2 "depart" m || cellIsNull log k.1 k.2.1 k.2.2 "depart")

/-- `current_patients_in_moment`: the `patient` values of the pivot rows that
pass the presence filter.  `none` models the `except KeyError` branch, taken
when the log has no `arrival` column or no `depart` column at all. -/
def currentPatients (log : List Entry) (m : Nat) : Option (List Nat) :=
  if (log.any fun r => r.event == "arrival") && (log.any fun r => r.event == "depart") then
    some (((pivotKeys log).filter fun k => keyActive log k m).map fun k => k.1)
  else
    none

/-- The entries of patient `p` with `time <= minute`, each paired with its
original position in the log (the `index` column produced by
`reset_index(drop=False)`). -/
def candidateEntries (log : List Entry) (p : Nat) (m : Nat) : List (Nat × Entry) :=
  log.enum.filter fun c => c.2.patient == p && decide (c.2.time ≤ (m : Int))

/-- `sort_values(['time','index']).groupby(['patient']).tail(1)` for one
patient: the candidate with the greatest time, a later log position winning
ties.  The candidates arrive in log order, so replacing the current best
whenever its time does not exceed the next candidate's time selects exactly
the last row of the stable sort by `(time, index)`. -/
def pickLatest : List (Nat × Entry) → Option (Nat × Entry)
  | [] => none
  | c :: cs => some (cs.foldl (fun best d => if best.2.time ≤ d.2.time then d else best) c)

/-- `most_recent_events_minute_ungrouped.assign(minute=minute)`: the snapshot
rows appended to `patient_dfs` for one sampled minute — one row per present
patient, copying the fields of its latest event at or before that minute (the
`index` helper column is dropped). -/
def minuteRows (log : List Entry) (m : Nat) : List SnapRow :=
  match currentPatients log m with
  | none => []
  | some ps =>
      ps.dedup.filterMap fun p =>
        (pickLatest (candidateEntries log p m)).map fun c => ⟨c.2, m⟩

/-- The sampled instants: every `minute in range(limit_duration)` with
`minute % every_x_time_units == 0`. -/
def sampleMinutes (Δ H : Nat) : List Nat :=
  (List.range H).filter fun m => m % Δ == 0

/-- The main sweep: concatenation of the per-minute snapshot data frames. -/
def sweepRows (log : List Entry) (Δ H : Nat) : List SnapRow :=
  (sampleMinutes Δ H).flatMap fun m => minuteRows log m

/-- `sort_values(["patient","minute"]).groupby(["patient"]).tail(1)` for one
patient: its row with the greatest minute, a later position winning ties
(one row per sampled minute makes ties impossible in practice). -/
def lastRealRow (rows : List SnapRow) (p : Nat) : Option SnapRow :=
  match rows.filter fun r => r.entry.patient == p with
  | [] => none
  | r :: rs => some (rs.foldl (fun best c => if best.minute ≤ c.minute then c else best) r)

/-- The distinct patients of the sweep output, in order of first appearance. -/
def patientsOf (rows : List SnapRow) : List Nat :=
  (rows.map fun r => r.entry.patient).dedup

/-- The synthetic terminal rows: for every patient, its last real snapshot row
with `minute` advanced by one sampling step and `event` overwritten by
`"exit"`. -/
def exitRows (rows : List SnapRow) (Δ : Nat) : List SnapRow :=
  (patientsOf rows).filterMap fun p =>
    (lastRealRow rows p).map fun r => ⟨{ r.entry with event := "exit" }, r.minute + Δ⟩

/-- Lexicographic comparison of strings as character lists (the order pandas
uses on the `event` column). -/
def charListLt : List Char → List Char → Bool
  | [], [] => false
  | [], _ :: _ => true
  | _ :: _, [] => false
  | a :: as, b :: bs =>
      if a.val < b.val then true else if b.val < a.val then false else charListLt as bs

/-- The key order of the final `sort_values(["minute","event"])`. -/
def snapLE (a b : SnapRow) : Bool :=
  a.minute < b.minute ||
    (a.minute == b.minute && !(charListLt b.entry.event.data a.entry.event.data))

/-- `reshape_for_animations`: the main sweep, the appended synthetic exit
rows, and the final sort by `(minute, event)`. -/
def reshape_for_animations (log : List Entry) (Δ H : Nat) : List SnapRow :=
  let main := sweepRows log Δ H
  (main ++ exitRows main Δ).insertionSort fun a b => snapLE a b = true

/-- Key of the ranking groups: `groupby(['event','minute'])`. -/
def sameFrameGroup (a b : SnapRow) : Bool :=
  a.entry.event == b.entry.event && a.minute == b.minute

/-- `rank(method='first')` within each `(event, minute)` group: one plus the
number of earlier rows of the same group. -/
def rankedRows (rows : List SnapRow) : List (SnapRow × Nat) :=
  rows.enum.map fun c =>
    (c.2, 1 + ((rows.take c.1).filter fun s => sameFrameGroup s c.2).length)

/-- `merge(event_position_df, on="event", how='left')` for one row (stage
names are unique in the configurations the engine supports, so the first
match decides). -/
def lookupStage (posdf : List Stage) (ev : String) : Option Stage :=
  posdf.find? fun s => s.event == ev

/-- Layout of one queue row: `x_final = x - rank*gap_between_entities`,
`y_final = y`; under `wrap_queues_at = w` additionally
`row = floor(rank / (w+1))`, `x_final += w*row*gap_between_entities`,
`y_final += row*gap_between_rows`.  A row whose event has no stage keeps
`NaN` coordinates. -/
def queuePosRow (posdf : List Stage) (wrap : Option Nat) (gapE gapR : Int)
    (c : SnapRow × Nat) : PosRow :=
  match lookupStage posdf c.1.entry.event with
  | none => ⟨c.1, c.2, none, none⟩
  | some s =>
      match wrap with
      | none => ⟨c.1, c.2, some (s.x - (c.2 : Int) * gapE), some s.y⟩
      | some w =>
          let row : Nat := c.2 / (w + 1)
          ⟨c.1, c.2, some (s.x - (c.2 : Int) * gapE + (w : Int) * (row : Int) * gapE),
            some (s.y + (row : Int) * gapR)⟩

/-- Layout of one resource-use row:
`x_final = x - resource_id*gap_between_resources`, `y_final = y`; a missing
`resource_id` or a missing stage propagates `NaN`. -/
def resourcePosRow (posdf : List Stage) (gapRes : Int) (c : SnapRow × Nat) : PosRow :=
  match lookupStage posdf c.1.entry.event with
  | none => ⟨c.1, c.2, none, none⟩
  | some s => ⟨c.1, c.2, c.1.entry.resource_id.map fun i => s.x - i * gapRes, some s.y⟩

/-- `animate_activity_log` up to
`full_patient_df_plus_pos = pd.concat([queues, resource_use])`: rows of other
event types do not survive this concatenation. -/
def animate_activity_log (log : List Entry) (posdf : List Stage) (Δ H : Nat)
    (wrap : Option Nat) (gapE gapR gapRes : Int) : List PosRow :=
  let ranked := rankedRows (reshape_for_animations log Δ H)
  ((ranked.filter fun c => c.1.entry.event_type == "queue").map
      (queuePosRow posdf wrap gapE gapR)) ++
    ((ranked.filter fun c => c.1.entry.event_type == "resource_use").map
      (resourcePosRow posdf gapRes))

/-- `individual_patients = full_patient_df['patient'].drop_duplicates()
.sort_values()`. -/
def individual_patients (rows : List SnapRow) : List Nat :=
  ((rows.map fun r => r.entry.patient).dedup).insertionSort (fun a b => a ≤ b)

/-- `full_icon_list = icon_list * int(np.ceil(n/len(icon_list)))` truncated
to `n` entries. -/
def full_icon_list (palette : List String) (n : Nat) : List String :=
  ((List.replicate ((n + palette.length - 1) / palette.length) palette).flatten).take n

/-- The icon merged onto every row of patient `p`: position of `p` in the
sorted distinct patients, read off the cycled palette. -/
def icon_of (palette : List String) (rows : List SnapRow) (p : Nat) : Option String :=
  ((individual_patients rows).zip
    (full_icon_list palette (individual_patients rows).length)).lookup p

/-- The `return_df_only` output: every positioned row joined with the icon of
its patient. -/
def animate_with_icons (palette : List String) (log : List Entry) (posdf : List Stage)
    (Δ H : Nat) (wrap : Option Nat) (gapE gapR gapRes : Int) : List (PosRow × String) :=
  (animate_activity_log log posdf Δ H wrap gapE gapR gapRes).filterMap fun c =>
    (icon_of palette (reshape_for_animations log Δ H) c.row.entry.patient).map fun ic => (c, ic)

/-- Icon assignment as the specification words it: palette entries handed out
in order of each entity's first appearance (a reference definition, to be
compared with `icon_of`, which the implementation bases on the sorted entity
ids). -/
def icon_of_by_first_appearance (palette : List String) (rows : List SnapRow) (p : Nat) :
    Option String :=
  (((rows.map fun r => r.entry.patient).dedup).zip
    (full_icon_list palette ((rows.map fun r => r.entry.patient).dedup).length)).lookup p

/-- The first `arrival` entry of patient `p` (the unique one, under the data
model's invariant). -/
def arrivalEntry (log : List Entry) (p : Nat) : Option Entry :=
  log.find? fun r => r.patient == p && r.event == "arrival"

/-- The first `depart` entry of patient `p` (the unique one, under the data
model's invariant). -/
def departEntry (log : List Entry) (p : Nat) : Option Entry :=
  log.find? fun r => r.patient == p && r.event == "depart"

/-- Patient `p` logs at most one event named `ev`. -/
def atMostOneEvent (log : List Entry) (p : Nat) (ev : String) : Prop :=
  (log.filter fun r => r.patient == p && r.event == ev).length ≤ 1

/-- Lexicographic order on `(log position, entry)` candidates by
`(time, position)` — the sort key of the latest-event selection. -/
def lexLE (a b : Nat × Entry) : Prop :=
  a.2.time < b.2.time ∨ (a.2.time = b.2.time ∧ a.1 ≤ b.1)

theorem lexLE_refl (a : Nat × Entry) : lexLE a a := Or.inr ⟨rfl, le_refl _⟩

theorem lexLE_time_le {a b : Nat × Entry} (h : lexLE a b) : a.2.time ≤ b.2.time := by
  rcases h with h | ⟨h, _⟩
  · exact le_of_lt h
  · exact le_of_eq h

theorem lexLE_trans {a b c : Nat × Entry} (h1 : lexLE a b) (h2 : lexLE b c) : lexLE a c := by
  rcases h1 with h1 | ⟨h1, h1i⟩
  · exact Or.inl (lt_of_lt_of_le h1 (lexLE_time_le h2))
  · rcases h2 with h2 | ⟨h2, h2i⟩
    · exact Or.inl (h1 ▸ h2)
    · exact Or.inr ⟨h1.trans h2, le_trans h1i h2i⟩

theorem pickFold_spec (cs : List (Nat × Entry)) :
    ∀ b : Nat × Entry, (∀ y ∈ cs, b.1 < y.1) →
      cs.Pairwise (fun x y => x.1 < y.1) →
      ((cs.foldl (fun best d => if best.2.time ≤ d.2.time then d else best) b = b ∨
          cs.foldl (fun best d => if best.2.time ≤ d.2.time then d else best) b ∈ cs) ∧
        lexLE b (cs.foldl (fun best d => if best.2.time ≤ d.2.time then d else best) b) ∧
        ∀ y ∈ cs, lexLE y (cs.foldl (fun best d => if best.2.time ≤ d.2.time then d else best) b)) := by
  induction cs with
  | nil => exact fun b _ _ => ⟨Or.inl rfl, lexLE_refl b, fun y hy => absurd hy (by simp)⟩
  | cons c cs ih =>
    intro b hb hp
    rw [List.pairwise_cons] at hp
    simp only [List.foldl_cons]
    by_cases h : b.2.time ≤ c.2.time
    · have step : (if b.2.time ≤ c.2.time then c else b) = c := if_pos h
      rw [step]
      obtain ⟨hmem, hcx, hall⟩ := ih c hp.1 hp.2
      have hbc : lexLE b c := by
        rcases lt_or_eq_of_le h with h' | h'
        · exact Or.inl h'
        · exact Or.inr ⟨h', le_of_lt (hb c (List.mem_cons_self c cs))⟩
      refine ⟨?_, lexLE_trans hbc hcx, ?_⟩
      · rcases hmem with h' | h'
        · exact Or.inr (by rw [h']; exact List.mem_cons_self c cs)
        · exact Or.inr (List.mem_cons_of_mem c h')
      · intro y hy
        rcases List.mem_cons.mp hy with h' | h'
        · rw [h']; exact hcx
        · exact hall y h'
    · have step : (if b.2.time ≤ c.2.time then c else b) = b := if_neg h
      rw [step]
      have hcb : c.2.time < b.2.time := lt_of_not_le h
      obtain ⟨hmem, hbx, hall⟩ := ih b (fun y hy => hb y (List.mem_cons_of_mem c hy)) hp.2
      refine ⟨?_, hbx, ?_⟩
      · rcases hmem with h' | h'
        · exact Or.inl h'
        · exact Or.inr (List.mem_cons_of_mem c h')
      · intro y hy
        rcases List.mem_cons.mp hy with h' | h'
        · exact h' ▸ Or.inl (lt_of_lt_of_le hcb (lexLE_time_le hbx))
        · exact hall y h'

theorem pickLatest_spec {cs : List (Nat × Entry)} {x : Nat × Entry}
    (hp : cs.Pairwise fun a b => a.1 < b.1) (hx : pickLatest cs = some x) :
    x ∈ cs ∧ ∀ y ∈ cs, lexLE y x := by
  match cs, hx with
  | c :: cs, hx =>
    rw [List.pairwise_cons] at hp
    obtain ⟨hmem, hcx, hall⟩ := pickFold_spec cs c hp.1 hp.2
    have hfx : cs.foldl (fun best d => if best.2.time ≤ d.2.time then d else best) c = x := by
      simpa [pickLatest] using hx
    subst hfx
    refine ⟨?_, ?_⟩
    · rcases hmem with h' | h'
      · rw [h']; exact List.mem_cons_self c cs
      · exact List.mem_cons_of_mem c h'
    · intro y hy
      rcases List.mem_cons.mp hy with h' | h'
      · rw [h']; exact hcx
      · exact hall y h'

theorem pickLatest_eq_none_iff {cs : List (Nat × Entry)} : pickLatest cs = none ↔ cs = [] := by
  cases cs <;> simp [pickLatest]

theorem enum_pairwise_fst {α : Type} (l : List α) :
    l.enum.Pairwise fun a b => a.1 < b.1 := by
  have h := List.pairwise_lt_range l.length
  rw [← List.enum_map_fst] at h
  exact List.pairwise_map.mp h

theorem mem_candidateEntries {log : List Entry} {p m : Nat} {c : Nat × Entry} :
    c ∈ candidateEntries log p m ↔
      c ∈ log.enum ∧ c.2.patient = p ∧ c.2.time ≤ (m : Int) := by
  simp [candidateEntries, List.mem_filter, and_assoc]

theorem candidateEntries_pairwise (log : List Entry) (p m : Nat) :
    (candidateEntries log p m).Pairwise fun a b => a.1 < b.1 :=
  List.Pairwise.sublist (List.filter_sublist _) (enum_pairwise_fst log)

theorem mem_minuteRows {log : List Entry} {m : Nat} {row : SnapRow} :
    row ∈ minuteRows log m ↔
      ∃ ps, currentPatients log m = some ps ∧
        ∃ p ∈ ps.dedup, ∃ c, pickLatest (candidateEntries log p m) = some c ∧
          row = ⟨c.2, m⟩ := by
  unfold minuteRows
  cases hc : currentPatients log m with
  | none =>
    simp only [List.not_mem_nil, false_iff]
    rintro ⟨ps, hps, -⟩
    exact Option.noConfusion hps
  | some ps =>
    simp only [List.mem_filterMap]
    constructor
    · rintro ⟨p, hp, hmap⟩
      rw [Option.map_eq_some'] at hmap
      obtain ⟨c, hpick, hrow⟩ := hmap
      exact ⟨ps, rfl, p, hp, c, hpick, hrow.symm⟩
    · rintro ⟨ps', hps', p, hp, c, hpick, hrow⟩
      have hpe : ps = ps' := Option.some.inj hps'
      subst hpe
      refine ⟨p, hp, ?_⟩
      rw [Option.map_eq_some']
      exact ⟨c, hpick, hrow.symm⟩

theorem minuteRows_minute {log : List Entry} {m : Nat} {row : SnapRow}
    (h : row ∈ minuteRows log m) : row.minute = m := by
  obtain ⟨ps, -, p, -, c, -, hrow⟩ := mem_minuteRows.mp h
  rw [hrow]

theorem mem_sweepRows {log : List Entry} {Δ H : Nat} {row : SnapRow} :
    row ∈ sweepRows log Δ H ↔ ∃ m, m < H ∧ m % Δ = 0 ∧ row ∈ minuteRows log m := by
  simp only [sweepRows, sampleMinutes, List.mem_flatMap, List.mem_filter, List.mem_range,
    beq_iff_eq]
  constructor
  · rintro ⟨m, ⟨hmH, hmΔ⟩, hrow⟩
    exact ⟨m, hmH, hmΔ, hrow⟩
  · rintro ⟨m, hmH, hmΔ, hrow⟩
    exact ⟨m, ⟨hmH, hmΔ⟩, hrow⟩

/-- C2: every snapshot row of entity `e` at sampled instant `T` copies the
event-log entry of `e` with the latest `time ≤ T`, and among entries sharing
that latest time the one appearing later in the input log wins. -/
theorem C2_latest_event_tiebreak (log : List Entry) (Δ H : Nat) (e T : Nat) (row : SnapRow)
    (hrow : row ∈ sweepRows log Δ H) (hp : row.entry.patient = e) (hm : row.minute = T) :
    ∃ i, ∃ hi : i < log.length, log[i] = row.entry ∧ row.entry.time ≤ (T : Int) ∧
      ∀ j, ∀ hj : j < log.length, log[j].patient = e → log[j].time ≤ (T : Int) →
        (log[j].time < row.entry.time ∨ (log[j].time = row.entry.time ∧ j ≤ i)) := by
  obtain ⟨m, -, -, hmr⟩ := mem_sweepRows.mp hrow
  have hmm : row.minute = m := minuteRows_minute hmr
  have hmT : m = T := by rw [← hmm, hm]
  subst hmT
  obtain ⟨ps, -, p, -, c, hpick, hrowc⟩ := mem_minuteRows.mp hmr
  obtain ⟨hcmem, hcbest⟩ := pickLatest_spec (candidateEntries_pairwise log p m) hpick
  obtain ⟨hcenum, hcp, hct⟩ := mem_candidateEntries.mp hcmem
  have hentry : row.entry = c.2 := by rw [hrowc]
  have hpe : p = e := by rw [← hp, hentry, hcp]
  subst hpe
  obtain ⟨hlt, hgot⟩ := List.mem_enum hcenum
  refine ⟨c.1, hlt, by rw [← hgot, hentry], by rw [hentry]; exact hct, ?_⟩
  intro j hj hjp hjt
  have hjenum : (j, log[j]) ∈ log.enum := by
    have hjl : j < log.enum.length := by rw [List.enum_length]; exact hj
    have hje : log.enum[j] = (j, log[j]) := List.getElem_enum log j hjl
    rw [← hje]
    exact List.getElem_mem hjl
  have hjc : (j, log[j]) ∈ candidateEntries log p m :=
    mem_candidateEntries.mpr ⟨hjenum, hjp, hjt⟩
  have := hcbest (j, log[j]) hjc
  rw [hentry]
  rcases this with h' | ⟨h', h''⟩
  · exact Or.inl h'
  · exact Or.inr ⟨h', h''⟩

theorem length_le_one_eq {α : Type} {l : List α} (h : l.length ≤ 1) {a b : α}
    (ha : a ∈ l) (hb : b ∈ l) : a = b := by
  match l with
  | [] => exact absurd ha (List.not_mem_nil a)
  | [x] => rw [List.mem_singleton] at ha hb; rw [ha, hb]
  | x :: y :: t => exfalso; simp only [List.length_cons] at h; omega

theorem find_event_mem {log : List Entry} {e : Nat} {ev : String} {a : Entry}
    (h : (log.find? fun r => r.patient == e && r.event == ev) = some a) :
    a ∈ log ∧ a.patient = e ∧ a.event = ev := by
  have hm := List.mem_of_find?_eq_some h
  have hp := List.find?_some h
  simp only [Bool.and_eq_true, beq_iff_eq] at hp
  exact ⟨hm, hp.1, hp.2⟩

theorem mem_event_filter {log : List Entry} {e : Nat} {ev : String} {a : Entry}
    (hmem : a ∈ log) (hp : a.patient = e) (he : a.event = ev) :
    a ∈ log.filter fun r => r.patient == e && r.event == ev := by
  rw [List.mem_filter]
  exact ⟨hmem, by simp [hp, he]⟩

theorem event_filter_eq_singleton {log : List Entry} {e : Nat} {ev : String} {a : Entry}
    (hu : (log.filter fun r => r.patient == e && r.event == ev).length ≤ 1)
    (hf : (log.find? fun r => r.patient == e && r.event == ev) = some a) :
    (log.filter fun r => r.patient == e && r.event == ev) = [a] := by
  obtain ⟨hmem, hp, he⟩ := find_event_mem hf
  have ha := mem_event_filter hmem hp he
  cases hF : (log.filter fun r => r.patient == e && r.event == ev) with
  | nil => rw [hF] at ha; exact absurd ha (List.not_mem_nil a)
  | cons x t =>
    rw [hF] at ha hu
    have hx : x = a := length_le_one_eq hu (List.mem_cons_self x t) ha
    have ht : t = [] := by
      cases t with
      | nil => rfl
      | cons y u => exfalso; simp only [List.length_cons] at hu; omega
    rw [hx, ht]

theorem cellTimes_eq_event_filter (log : List Entry) (e : Nat) (et pw ev : String) :
    cellTimes log e et pw ev =
      ((log.filter fun r => r.patient == e && r.event == ev).filter
        fun r => r.event_type == et && r.pathway == pw).map fun r => r.time := by
  unfold cellTimes
  rw [List.filter_filter]
  congr 1
  apply List.filter_congr
  intro x _
  cases h1 : x.patient == e <;> cases h2 : x.event_type == et <;>
    cases h3 : x.pathway == pw <;> cases h4 : x.event == ev <;> rfl

theorem cellTimes_singleton {log : List Entry} {e : Nat} {ev : String} {a : Entry}
    (hu : (log.filter fun r => r.patient == e && r.event == ev).length ≤ 1)
    (hf : (log.find? fun r => r.patient == e && r.event == ev) = some a) :
    cellTimes log e a.event_type a.pathway ev = [a.time] := by
  rw [cellTimes_eq_event_filter, event_filter_eq_singleton hu hf]
  simp

theorem cellTimes_empty_of_ne_key {log : List Entry} {e : Nat} {ev : String} {a : Entry}
    {et pw : String}
    (hu : (log.filter fun r => r.patient == e && r.event == ev).length ≤ 1)
    (hf : (log.find? fun r => r.patient == e && r.event == ev) = some a)
    (hne : ¬(a.event_type = et ∧ a.pathway = pw)) :
    cellTimes log e et pw ev = [] := by
  rw [cellTimes_eq_event_filter, event_filter_eq_singleton hu hf]
  have hfalse : ¬(a.event_type == et && a.pathway == pw) = true := by
    simp only [Bool.and_eq_true, beq_iff_eq]
    exact hne
  simp [List.filter_cons, hfalse]

theorem cellTimes_empty_of_find_none {log : List Entry} {e : Nat} {ev : String}
    {et pw : String}
    (hf : (log.find? fun r => r.patient == e && r.event == ev) = none) :
    cellTimes log e et pw ev = [] := by
  rw [List.find?_eq_none] at hf
  have hnil : (log.filter fun r =>
      r.patient == e && r.event_type == et && r.pathway == pw && r.event == ev) = [] := by
    rw [List.filter_eq_nil_iff]
    intro x hx hpred
    simp only [Bool.and_eq_true, beq_iff_eq] at hpred
    refine hf x hx ?_
    simp [hpred.1.1.1, hpred.2]
  unfold cellTimes
  rw [hnil]
  rfl

theorem cellMeanLE_iff {log : List Entry} {e : Nat} {ev et pw : String} {m : Nat}
    (hu : (log.filter fun r => r.patient == e && r.event == ev).length ≤ 1) :
    cellMeanLE log e et pw ev m = true ↔
      ∃ a, (log.find? fun r => r.patient == e && r.event == ev) = some a ∧
        a.event_type = et ∧ a.pathway = pw ∧ a.time ≤ (m : Int) := by
  constructor
  · intro h
    unfold cellMeanLE at h
    rw [Bool.and_eq_true] at h
    obtain ⟨hne, hsum⟩ := h
    cases hf : (log.find? fun r => r.patient == e && r.event == ev) with
    | none =>
      exfalso
      rw [cellTimes_empty_of_find_none hf] at hne
      simp at hne
    | some a =>
      by_cases hkeys : a.event_type = et ∧ a.pathway = pw
      · obtain ⟨h1, h2⟩ := hkeys
        subst h1; subst h2
        rw [cellTimes_singleton hu hf] at hsum
        refine ⟨a, rfl, rfl, rfl, ?_⟩
        simpa using hsum
      · exfalso
        rw [cellTimes_empty_of_ne_key hu hf hkeys] at hne
        simp at hne
  · rintro ⟨a, hf, h1, h2, ht⟩
    subst h1; subst h2
    unfold cellMeanLE
    rw [cellTimes_singleton hu hf]
    simpa using ht

theorem cellMeanGE_iff {log : List Entry} {e : Nat} {ev et pw : String} {m : Nat}
    (hu : (log.filter fun r => r.patient == e && r.event == ev).length ≤ 1) :
    cellMeanGE log e et pw ev m = true ↔
      ∃ a, (log.find? fun r => r.patient == e && r.event == ev) = some a ∧
        a.event_type = et ∧ a.pathway = pw ∧ (m : Int) ≤ a.time := by
  constructor
  · intro h
    unfold cellMeanGE at h
    rw [Bool.and_eq_true] at h
    obtain ⟨hne, hsum⟩ := h
    cases hf : (log.find? fun r => r.patient == e && r.event == ev) with
    | none =>
      exfalso
      rw [cellTimes_empty_of_find_none hf] at hne
      simp at hne
    | some a =>
      by_cases hkeys : a.event_type = et ∧ a.pathway = pw
      · obtain ⟨h1, h2⟩ := hkeys
        subst h1; subst h2
        rw [cellTimes_singleton hu hf] at hsum
        refine ⟨a, rfl, rfl, rfl, ?_⟩
        simpa using hsum
      · exfalso
        rw [cellTimes_empty_of_ne_key hu hf hkeys] at hne
        simp at hne
  · rintro ⟨a, hf, h1, h2, ht⟩
    subst h1; subst h2
    unfold cellMeanGE
    rw [cellTimes_singleton hu hf]
    simpa using ht

theorem keyActive_iff {log : List Entry} {e : Nat} {et pw : String} {m : Nat}
    (huA : atMostOneEvent log e "arrival") (huD : atMostOneEvent log e "depart")
    (hkey : ∀ a d, a ∈ log → d ∈ log → a.event = "arrival" → d.event = "depart" →
      a.patient = e → d.patient = e → a.event_type = d.event_type ∧ a.pathway = d.pathway) :
    keyActive log (e, et, pw) m = true ↔
      ∃ a, arrivalEntry log e = some a ∧ a.event_type = et ∧ a.pathway = pw ∧
        a.time ≤ (m : Int) ∧
        (departEntry log e = none ∨
          ∃ d, departEntry log e = some d ∧ (m : Int) ≤ d.time) := by
  unfold keyActive
  rw [Bool.and_eq_true]
  constructor
  · rintro ⟨hle, hor⟩
    obtain ⟨a, hf, h1, h2, ht⟩ := (cellMeanLE_iff huA).mp hle
    subst h1; subst h2
    refine ⟨a, hf, rfl, rfl, ht, ?_⟩
    cases hd : departEntry log e with
    | none => exact Or.inl rfl
    | some d =>
      obtain ⟨hdm, hdp, hde⟩ := find_event_mem hd
      obtain ⟨ham, hap, hae⟩ := find_event_mem hf
      obtain ⟨ket, kpw⟩ := hkey a d ham hdm hae hde hap hdp
      rw [Bool.or_eq_true] at hor
      rcases hor with hge | hnull
      · obtain ⟨d', hd', -, -, htd⟩ := (cellMeanGE_iff huD).mp hge
        have hd2 : List.find? (fun r => r.patient == e && r.event == "depart") log = some d := hd
        rw [hd'] at hd2
        have hdd : d' = d := Option.some.inj hd2
        subst hdd
        exact Or.inr ⟨d', rfl, htd⟩
      · exfalso
        unfold cellIsNull at hnull
        have hcell : cellTimes log e a.event_type a.pathway "depart" = [d.time] := by
          have := cellTimes_singleton huD hd
          rw [← ket, ← kpw] at this
          exact this
        rw [hcell] at hnull
        simp at hnull
  · rintro ⟨a, hf, h1, h2, ht, hdep⟩
    subst h1; subst h2
    refine ⟨(cellMeanLE_iff huA).mpr ⟨a, hf, rfl, rfl, ht⟩, ?_⟩
    rw [Bool.or_eq_true]
    rcases hdep with hnone | ⟨d, hd, htd⟩
    · refine Or.inr ?_
      unfold cellIsNull
      rw [cellTimes_empty_of_find_none hnone]
      rfl
    · refine Or.inl ?_
      obtain ⟨hdm, hdp, hde⟩ := find_event_mem hd
      obtain ⟨ham, hap, hae⟩ := find_event_mem hf
      obtain ⟨ket, kpw⟩ := hkey a d ham hdm hae hde hap hdp
      refine (cellMeanGE_iff huD).mpr ⟨d, hd, ket.symm, kpw.symm, htd⟩

theorem mem_active_list_iff {log : List Entry} {e m : Nat}
    (huA : atMostOneEvent log e "arrival") (huD : atMostOneEvent log e "depart")
    (hkey : ∀ a d, a ∈ log → d ∈ log → a.event = "arrival" → d.event = "depart" →
      a.patient = e → d.patient = e → a.event_type = d.event_type ∧ a.pathway = d.pathway) :
    (e ∈ ((pivotKeys log).filter fun k => keyActive log k m).map fun k => k.1) ↔
      ∃ a, arrivalEntry log e = some a ∧ a.time ≤ (m : Int) ∧
        (departEntry log e = none ∨
          ∃ d, departEntry log e = some d ∧ (m : Int) ≤ d.time) := by
  rw [List.mem_map]
  constructor
  · rintro ⟨⟨p, et, pw⟩, hk, hpe⟩
    rw [List.mem_filter] at hk
    have hp : p = e := hpe
    subst hp
    obtain ⟨a, hf, -, -, ht, hdep⟩ := (keyActive_iff huA huD hkey).mp hk.2
    exact ⟨a, hf, ht, hdep⟩
  · rintro ⟨a, hf, ht, hdep⟩
    obtain ⟨hmem, hpa, -⟩ := find_event_mem hf
    refine ⟨(e, a.event_type, a.pathway), ?_, rfl⟩
    rw [List.mem_filter]
    refine ⟨?_, (keyActive_iff huA huD hkey).mpr ⟨a, hf, rfl, rfl, ht, hdep⟩⟩
    unfold pivotKeys
    rw [List.mem_dedup, List.mem_map]
    exact ⟨a, hmem, by rw [hpa]⟩

/-- C1 (amended): with both an `arrival` and a `depart` column present in the
log, and the data-model invariants (at most one arrival and one depart per
entity, logged under one `(event_type, pathway)` key), the main sweep emits a
snapshot row for `e` at a sampled instant `T` exactly when
`arrival_time(e) ≤ T` and the departure is absent or at least `T`. -/
theorem C1_presence_amended (log : List Entry) (Δ H e T : Nat)
    (hΔ : 0 < Δ) (hTH : T < H) (hTg : T % Δ = 0)
    (hac : ∃ r ∈ log, r.event = "arrival") (hdc : ∃ r ∈ log, r.event = "depart")
    (huA : atMostOneEvent log e "arrival") (huD : atMostOneEvent log e "depart")
    (hkey : ∀ a d, a ∈ log → d ∈ log → a.event = "arrival" → d.event = "depart" →
      a.patient = e → d.patient = e → a.event_type = d.event_type ∧ a.pathway = d.pathway) :
    (∃ row ∈ sweepRows log Δ H, row.entry.patient = e ∧ row.minute = T) ↔
      ∃ a, arrivalEntry log e = some a ∧ a.time ≤ (T : Int) ∧
        (departEntry log e = none ∨
          ∃ d, departEntry log e = some d ∧ (T : Int) ≤ d.time) := by
  have hcond : ((log.any fun r => r.event == "arrival") &&
      (log.any fun r => r.event == "depart")) = true := by
    rw [Bool.and_eq_true, List.any_eq_true, List.any_eq_true]
    obtain ⟨r1, h1, h1e⟩ := hac
    obtain ⟨r2, h2, h2e⟩ := hdc
    exact ⟨⟨r1, h1, by simp [h1e]⟩, ⟨r2, h2, by simp [h2e]⟩⟩
  have hC : currentPatients log T =
      some (((pivotKeys log).filter fun k => keyActive log k T).map fun k => k.1) := by
    unfold currentPatients
    rw [if_pos hcond]
  constructor
  · rintro ⟨row, hrow, hp, hm⟩
    obtain ⟨m, hmH, hmΔ, hmr⟩ := mem_sweepRows.mp hrow
    have hmm : row.minute = m := minuteRows_minute hmr
    have hmT : m = T := by rw [← hmm, hm]
    subst hmT
    obtain ⟨ps, hps, p, hpd, c, hpick, hrowc⟩ := mem_minuteRows.mp hmr
    obtain ⟨hcmem, -⟩ := pickLatest_spec (candidateEntries_pairwise log p m) hpick
    obtain ⟨-, hcp, -⟩ := mem_candidateEntries.mp hcmem
    have hentry : row.entry = c.2 := by rw [hrowc]
    have hpe : p = e := by rw [← hp, hentry, hcp]
    subst hpe
    rw [hC] at hps
    have hpsL : ps = ((pivotKeys log).filter fun k => keyActive log k m).map fun k => k.1 :=
      (Option.some.inj hps).symm
    have he : p ∈ ps := List.mem_dedup.mp hpd
    rw [hpsL] at he
    exact (mem_active_list_iff huA huD hkey).mp he
  · rintro ⟨a, hf, ht, hdep⟩
    have heL : e ∈ ((pivotKeys log).filter fun k => keyActive log k T).map fun k => k.1 :=
      (mem_active_list_iff huA huD hkey).mpr ⟨a, hf, ht, hdep⟩
    obtain ⟨hmem, hpa, -⟩ := find_event_mem hf
    obtain ⟨i, hi, hgi⟩ := List.mem_iff_getElem.mp hmem
    have henum : (i, a) ∈ log.enum := by
      have hil : i < log.enum.length := by rw [List.enum_length]; exact hi
      have hie : log.enum[i] = (i, log[i]) := List.getElem_enum log i hil
      rw [← hgi, ← hie]
      exact List.getElem_mem hil
    have hcand : (i, a) ∈ candidateEntries log e T :=
      mem_candidateEntries.mpr ⟨henum, hpa, ht⟩
    have hne : candidateEntries log e T ≠ [] := by
      intro hnil
      rw [hnil] at hcand
      exact absurd hcand (List.not_mem_nil _)
    obtain ⟨c, hpick⟩ : ∃ c, pickLatest (candidateEntries log e T) = some c := by
      cases h : pickLatest (candidateEntries log e T) with
      | none => exact absurd (pickLatest_eq_none_iff.mp h) hne
      | some c => exact ⟨c, rfl⟩
    refine ⟨⟨c.2, T⟩, ?_, ?_, rfl⟩
    · refine mem_sweepRows.mpr ⟨T, hTH, hTg, ?_⟩
      exact mem_minuteRows.mpr ⟨_, hC, e, List.mem_dedup.mpr heL, c, hpick, rfl⟩
    · obtain ⟨hcm, -⟩ := pickLatest_spec (candidateEntries_pairwise log e T) hpick
      exact (mem_candidateEntries.mp hcm).2.1

/-- A two-entry log exercising the amended presence property. -/
def C1log : List Entry :=
  [⟨1, "pw", "arrival_departure", "arrival", 0, none⟩,
   ⟨1, "pw", "arrival_departure", "depart", 5, none⟩]

theorem C1_presence_amended_witness :
    (0 : Nat) < 1 ∧ 0 < 1 ∧ 0 % 1 = 0 ∧
    (∃ r ∈ C1log, r.event = "arrival") ∧ (∃ r ∈ C1log, r.event = "depart") ∧
    atMostOneEvent C1log 1 "arrival" ∧ atMostOneEvent C1log 1 "depart" ∧
    ((∃ row ∈ sweepRows C1log 1 1, row.entry.patient = 1 ∧ row.minute = 0) ↔
      ∃ a, arrivalEntry C1log 1 = some a ∧ a.time ≤ ((0 : Nat) : Int) ∧
        (departEntry C1log 1 = none ∨
          ∃ d, departEntry C1log 1 = some d ∧ ((0 : Nat) : Int) ≤ d.time)) :=
  ⟨by decide, by decide, by decide, by decide, by decide,
    by unfold atMostOneEvent; decide, by unfold atMostOneEvent; decide,
    C1_presence_amended C1log 1 1 1 0 (by decide) (by decide) (by decide)
      (by decide) (by decide)
      (by unfold atMostOneEvent; decide) (by unfold atMostOneEvent; decide)
      (by
        intro a d ha hd hae hde hap hdp
        fin_cases ha <;> fin_cases hd <;> simp_all)⟩

/-- A log whose single entity arrives and never departs: no entry named
`depart` exists anywhere. -/
def C1logNoDepart : List Entry :=
  [⟨1, "pw", "arrival_departure", "arrival", 0, none⟩]

/-- C1 (counterexample): on a log with no `depart` column the claimed
presence equivalence fails — the entity satisfies
`arrival_time ≤ 0` with departure absent, yet the main sweep emits no row at
the sampled instant `0` (the `KeyError` branch suppresses every snapshot). -/
theorem C1_counterexample :
    (∃ a, arrivalEntry C1logNoDepart 1 = some a ∧ a.time ≤ ((0 : Nat) : Int) ∧
      (departEntry C1logNoDepart 1 = none ∨
        ∃ d, departEntry C1logNoDepart 1 = some d ∧ ((0 : Nat) : Int) ≤ d.time)) ∧
    ¬(∃ row ∈ sweepRows C1logNoDepart 1 1, row.entry.patient = 1 ∧ row.minute = 0) := by
  decide

/-- A log with two queue entries of one patient sharing timestamp `0`:
the selection must resolve to the later-logged `waitB`. -/
def C2log : List Entry :=
  [⟨1, "pw", "arrival_departure", "arrival", 0, none⟩,
   ⟨1, "pw", "queue", "waitA", 0, none⟩,
   ⟨1, "pw", "queue", "waitB", 0, none⟩,
   ⟨1, "pw", "arrival_departure", "depart", 9, none⟩]

/-- The snapshot row the sweep emits for `C2log` at instant `0`. -/
def C2row : SnapRow := ⟨⟨1, "pw", "queue", "waitB", 0, none⟩, 0⟩

theorem C2_latest_event_tiebreak_witness :
    C2row ∈ sweepRows C2log 1 1 ∧ C2row.entry.patient = 1 ∧ C2row.minute = 0 ∧
    (∃ i, ∃ hi : i < C2log.length, C2log[i] = C2row.entry ∧
      C2row.entry.time ≤ ((0 : Nat) : Int) ∧
      ∀ j, ∀ hj : j < C2log.length, C2log[j].patient = 1 →
        C2log[j].time ≤ ((0 : Nat) : Int) →
        (C2log[j].time < C2row.entry.time ∨
          (C2log[j].time = C2row.entry.time ∧ j ≤ i))) :=
  ⟨by decide, by decide, by decide,
    C2_latest_event_tiebreak C2log 1 1 1 0 C2row (by decide) (by decide) (by decide)⟩

theorem lastFold_spec (rs : List SnapRow) :
    ∀ b : SnapRow,
      ((rs.foldl (fun best c => if best.minute ≤ c.minute then c else best) b = b ∨
          rs.foldl (fun best c => if best.minute ≤ c.minute then c else best) b ∈ rs) ∧
        b.minute ≤ (rs.foldl (fun best c => if best.minute ≤ c.minute then c else best) b).minute ∧
        ∀ y ∈ rs, y.minute ≤ (rs.foldl (fun best c => if best.minute ≤ c.minute then c else best) b).minute) := by
  induction rs with
  | nil => exact fun b => ⟨Or.inl rfl, le_refl _, fun y hy => absurd hy (by simp)⟩
  | cons c cs ih =>
    intro b
    simp only [List.foldl_cons]
    by_cases h : b.minute ≤ c.minute
    · rw [if_pos h]
      obtain ⟨hmem, hcx, hall⟩ := ih c
      refine ⟨?_, le_trans h hcx, ?_⟩
      · rcases hmem with h' | h'
        · exact Or.inr (by rw [h']; exact List.mem_cons_self c cs)
        · exact Or.inr (List.mem_cons_of_mem c h')
      · intro y hy
        rcases List.mem_cons.mp hy with h' | h'
        · rw [h']; exact hcx
        · exact hall y h'
    · rw [if_neg h]
      obtain ⟨hmem, hbx, hall⟩ := ih b
      refine ⟨?_, hbx, ?_⟩
      · rcases hmem with h' | h'
        · exact Or.inl h'
        · exact Or.inr (List.mem_cons_of_mem c h')
      · intro y hy
        rcases List.mem_cons.mp hy with h' | h'
        · rw [h']; exact le_trans (le_of_lt (lt_of_not_le h)) hbx
        · exact hall y h'

theorem lastRealRow_spec {rows : List SnapRow} {p : Nat} {last : SnapRow}
    (h : lastRealRow rows p = some last) :
    last ∈ rows ∧ last.entry.patient = p ∧
      ∀ r ∈ rows, r.entry.patient = p → r.minute ≤ last.minute := by
  unfold lastRealRow at h
  cases hF : rows.filter fun r => r.entry.patient == p with
  | nil => rw [hF] at h; exact Option.noConfusion h
  | cons r rs =>
    rw [hF] at h
    have hlast : rs.foldl (fun best c => if best.minute ≤ c.minute then c else best) r = last :=
      Option.some.inj h
    obtain ⟨hmem, hrx, hall⟩ := lastFold_spec rs r
    rw [hlast] at hmem hrx hall
    have hlastF : last ∈ rows.filter fun r => r.entry.patient == p := by
      rw [hF]
      rcases hmem with h' | h'
      · rw [h']; exact List.mem_cons_self r rs
      · exact List.mem_cons_of_mem r h'
    rw [List.mem_filter] at hlastF
    refine ⟨hlastF.1, by simpa using hlastF.2, ?_⟩
    intro x hx hxp
    have hxF : x ∈ rows.filter fun r => r.entry.patient == p :=
      List.mem_filter.mpr ⟨hx, by simp [hxp]⟩
    rw [hF] at hxF
    rcases List.mem_cons.mp hxF with h' | h'
    · rw [h']; exact hrx
    · exact hall x h'

theorem lastRealRow_isSome {rows : List SnapRow} {p : Nat}
    (hp : p ∈ patientsOf rows) : ∃ last, lastRealRow rows p = some last := by
  unfold patientsOf at hp
  rw [List.mem_dedup, List.mem_map] at hp
  obtain ⟨row, hrow, hrp⟩ := hp
  have hrowF : row ∈ rows.filter fun r => r.entry.patient == p :=
    List.mem_filter.mpr ⟨hrow, by simp [hrp]⟩
  unfold lastRealRow
  cases hF : rows.filter fun r => r.entry.patient == p with
  | nil => rw [hF] at hrowF; exact absurd hrowF (List.not_mem_nil row)
  | cons r rs => exact ⟨_, rfl⟩

theorem filterMap_patient_filter (qs : List Nat) (g : Nat → Option SnapRow)
    (hq : ∀ q x, g q = some x → x.entry.patient = q)
    (hnd : qs.Nodup) (p : Nat) (x : SnapRow) (hp : p ∈ qs) (hx : g p = some x) :
    (qs.filterMap g).filter (fun r => r.entry.patient == p) = [x] := by
  induction qs with
  | nil => exact absurd hp (List.not_mem_nil p)
  | cons q qs ih =>
    rw [List.nodup_cons] at hnd
    rcases List.mem_cons.mp hp with hpq | hpq
    · subst hpq
      rw [List.filterMap_cons, hx, List.filter_cons]
      have hxp : (x.entry.patient == p) = true := by simp [hq p x hx]
      rw [if_pos hxp]
      have hrest : (qs.filterMap g).filter (fun r => r.entry.patient == p) = [] := by
        rw [List.filter_eq_nil_iff]
        intro y hy hyp
        obtain ⟨q', hq', hgq'⟩ := List.mem_filterMap.mp hy
        have : y.entry.patient = q' := hq q' y hgq'
        rw [beq_iff_eq] at hyp
        rw [this] at hyp
        exact hnd.1 (hyp ▸ hq')
      rw [hrest]
    · have hqp : q ≠ p := fun hqe => hnd.1 (hqe ▸ hpq)
      cases hgq : g q with
      | none =>
        rw [List.filterMap_cons, hgq]
        exact ih hnd.2 hpq
      | some y =>
        rw [List.filterMap_cons, hgq, List.filter_cons]
        have hyp : ¬(y.entry.patient == p) = true := by
          rw [beq_iff_eq, hq q y hgq]
          exact hqp
        rw [if_neg hyp]
        exact ih hnd.2 hpq

/-- C6: for every entity that received at least one snapshot row, exactly one
synthetic terminal row is appended; it copies that entity's last real
snapshot row, advances `snapshot_time` by one step and renames the event to
`"exit"`; the reshaped output is the main sweep plus these rows (up to the
final sort, which only permutes). -/
theorem C6_exit_rows (log : List Entry) (Δ H p : Nat)
    (hp : ∃ row ∈ sweepRows log Δ H, row.entry.patient = p) :
    ∃ last, lastRealRow (sweepRows log Δ H) p = some last ∧
      last ∈ sweepRows log Δ H ∧ last.entry.patient = p ∧
      (∀ r ∈ sweepRows log Δ H, r.entry.patient = p → r.minute ≤ last.minute) ∧
      (exitRows (sweepRows log Δ H) Δ).filter (fun r => r.entry.patient == p) =
        [⟨{ last.entry with event := "exit" }, last.minute + Δ⟩] ∧
      (reshape_for_animations log Δ H).Perm
        (sweepRows log Δ H ++ exitRows (sweepRows log Δ H) Δ) := by
  obtain ⟨row, hrow, hrp⟩ := hp
  have hpm : p ∈ patientsOf (sweepRows log Δ H) := by
    unfold patientsOf
    rw [List.mem_dedup, List.mem_map]
    exact ⟨row, hrow, hrp⟩
  obtain ⟨last, hlast⟩ := lastRealRow_isSome hpm
  obtain ⟨hmem, hpat, hmax⟩ := lastRealRow_spec hlast
  refine ⟨last, hlast, hmem, hpat, hmax, ?_, ?_⟩
  · refine filterMap_patient_filter (patientsOf (sweepRows log Δ H)) _ ?_
      (List.nodup_dedup _) p _ hpm ?_
    · intro q x hgx
      rw [Option.map_eq_some'] at hgx
      obtain ⟨r, hr, hrx⟩ := hgx
      have := (lastRealRow_spec hr).2.1
      rw [← hrx]
      exact this
    · rw [hlast]
      rfl
  · exact List.perm_insertionSort _ _

/-- A one-patient log: two snapshot rows at minutes `0` and `1`, so the exit
row must copy the minute-`1` row and stamp it `2`. -/
def C6log : List Entry :=
  [⟨1, "pw", "arrival_departure", "arrival", 0, none⟩,
   ⟨1, "pw", "arrival_departure", "depart", 5, none⟩]

theorem C6_exit_rows_witness :
    (∃ row ∈ sweepRows C6log 1 2, row.entry.patient = 1) ∧
    (∃ last, lastRealRow (sweepRows C6log 1 2) 1 = some last ∧
      last ∈ sweepRows C6log 1 2 ∧ last.entry.patient = 1 ∧
      (∀ r ∈ sweepRows C6log 1 2, r.entry.patient = 1 → r.minute ≤ last.minute) ∧
      (exitRows (sweepRows C6log 1 2) 1).filter (fun r => r.entry.patient == 1) =
        [⟨{ last.entry with event := "exit" }, last.minute + 1⟩] ∧
      (reshape_for_animations C6log 1 2).Perm
        (sweepRows C6log 1 2 ++ exitRows (sweepRows C6log 1 2) 1)) :=
  ⟨by decide, C6_exit_rows C6log 1 2 1 (by decide)⟩

theorem minuteRow_of_map {log : List Entry} {m p : Nat} {x : SnapRow}
    (hx : ((pickLatest (candidateEntries log p m)).map fun c => (⟨c.2, m⟩ : SnapRow)) = some x) :
    x.entry.patient = p ∧ x.minute = m := by
  rw [Option.map_eq_some'] at hx
  obtain ⟨c, hpick, hcx⟩ := hx
  obtain ⟨hcmem, -⟩ := pickLatest_spec (candidateEntries_pairwise log p m) hpick
  obtain ⟨-, hcp, -⟩ := mem_candidateEntries.mp hcmem
  rw [← hcx]
  exact ⟨hcp, rfl⟩

theorem minuteRows_patients_pairwise (log : List Entry) (m : Nat) :
    (minuteRows log m).Pairwise fun a b => a.entry.patient ≠ b.entry.patient := by
  unfold minuteRows
  cases currentPatients log m with
  | none => exact List.Pairwise.nil
  | some ps =>
    rw [List.pairwise_filterMap]
    have hnd : ps.dedup.Pairwise (· ≠ ·) := List.nodup_dedup ps
    refine hnd.imp ?_
    intro a b hab x hx y hy
    rw [Option.mem_def] at hx hy
    rw [(minuteRow_of_map hx).1, (minuteRow_of_map hy).1]
    exact hab

theorem flatMap_minuteRows_pairwise (log : List Entry) :
    ∀ ms : List Nat, ms.Pairwise (· < ·) →
      (ms.flatMap fun m => minuteRows log m).Pairwise
        fun a b => ¬(a.entry.patient = b.entry.patient ∧ a.minute = b.minute) := by
  intro ms
  induction ms with
  | nil => intro; simp
  | cons m ms ih =>
    intro hp
    rw [List.pairwise_cons] at hp
    rw [List.flatMap_cons, List.pairwise_append]
    refine ⟨?_, ih hp.2, ?_⟩
    · refine (minuteRows_patients_pairwise log m).imp ?_
      intro a b hab hcon
      exact hab hcon.1
    · intro a ha b hb
      obtain ⟨mb, hmb, hbm⟩ := List.mem_flatMap.mp hb
      have h1 : a.minute = m := minuteRows_minute ha
      have h2 : b.minute = mb := minuteRows_minute hbm
      intro hcon
      have hlt : m < mb := hp.1 mb hmb
      rw [h1, h2] at hcon
      omega

theorem sweepRows_pairwise (log : List Entry) (Δ H : Nat) :
    (sweepRows log Δ H).Pairwise
      fun a b => ¬(a.entry.patient = b.entry.patient ∧ a.minute = b.minute) := by
  unfold sweepRows
  refine flatMap_minuteRows_pairwise log (sampleMinutes Δ H) ?_
  exact List.Pairwise.sublist (List.filter_sublist _) (List.pairwise_lt_range H)

theorem exitRows_patients_pairwise (rows : List SnapRow) (Δ : Nat) :
    (exitRows rows Δ).Pairwise fun a b => a.entry.patient ≠ b.entry.patient := by
  unfold exitRows
  rw [List.pairwise_filterMap]
  have hnd : (patientsOf rows).Pairwise (· ≠ ·) := List.nodup_dedup _
  refine hnd.imp ?_
  intro a b hab x hx y hy
  rw [Option.mem_def, Option.map_eq_some'] at hx hy
  obtain ⟨rx, hrx, hxe⟩ := hx
  obtain ⟨ry, hry, hye⟩ := hy
  have h1 : x.entry.patient = a := by rw [← hxe]; exact (lastRealRow_spec hrx).2.1
  have h2 : y.entry.patient = b := by rw [← hye]; exact (lastRealRow_spec hry).2.1
  rw [h1, h2]
  exact hab

/-- C10: every `(patient, minute)` pair occurs on at most one row of the
reshaped output — each entity is in exactly one place per frame, and the
synthetic exit rows cannot collide with the real rows because they are
stamped one step beyond the entity's last real snapshot time. -/
theorem C10_unique_patient_minute (log : List Entry) (Δ H : Nat) (hΔ : 0 < Δ) :
    (reshape_for_animations log Δ H).Pairwise
      fun a b => ¬(a.entry.patient = b.entry.patient ∧ a.minute = b.minute) := by
  have hperm : (reshape_for_animations log Δ H).Perm
      (sweepRows log Δ H ++ exitRows (sweepRows log Δ H) Δ) :=
    List.perm_insertionSort _ _
  have hsymm : ∀ {x y : SnapRow},
      (¬(x.entry.patient = y.entry.patient ∧ x.minute = y.minute)) →
      ¬(y.entry.patient = x.entry.patient ∧ y.minute = x.minute) := by
    intro x y h hcon
    exact h ⟨hcon.1.symm, hcon.2.symm⟩
  rw [List.Perm.pairwise_iff hsymm hperm]
  rw [List.pairwise_append]
  refine ⟨sweepRows_pairwise log Δ H, ?_, ?_⟩
  · refine (exitRows_patients_pairwise _ Δ).imp ?_
    intro a b hab hcon
    exact hab hcon.1
  · intro a ha b hb hcon
    obtain ⟨q, hq, hgb⟩ := List.mem_filterMap.mp hb
    rw [Option.map_eq_some'] at hgb
    obtain ⟨r, hr, hrb⟩ := hgb
    have hbp : b.entry.patient = q := by rw [← hrb]; exact (lastRealRow_spec hr).2.1
    have hbm : b.minute = r.minute + Δ := by rw [← hrb]
    have hap : a.entry.patient = q := by rw [hcon.1, hbp]
    have hle : a.minute ≤ r.minute := (lastRealRow_spec hr).2.2 a ha hap
    have hmm : a.minute = r.minute + Δ := by rw [hcon.2, hbm]
    omega

theorem C10_unique_patient_minute_witness :
    0 < 1 ∧
    (reshape_for_animations C6log 1 2).Pairwise
      (fun a b => ¬(a.entry.patient = b.entry.patient ∧ a.minute = b.minute)) :=
  ⟨by decide, C10_unique_patient_minute C6log 1 2 (by decide)⟩

theorem rankedRows_length (rows : List SnapRow) :
    (rankedRows rows).length = rows.length := by
  unfold rankedRows
  rw [List.length_map, List.enum_length]

theorem rankedRows_getElem (rows : List SnapRow) (i : Nat) (hi : i < rows.length)
    (hi2 : i < (rankedRows rows).length) :
    (rankedRows rows)[i] =
      (rows[i], 1 + ((rows.take i).filter fun s => sameFrameGroup s rows[i]).length) := by
  unfold rankedRows
  rw [List.getElem_map, List.getElem_enum]

theorem count_take_lt {α : Type} (rows : List α) (P : α → Bool) (i j : Nat)
    (hij : i < j) (hj : j ≤ rows.length) (hi : i < rows.length) (hP : P rows[i] = true) :
    ((rows.take i).filter P).length < ((rows.take j).filter P).length := by
  have hsplit : rows.take j = rows.take i ++ (rows.drop i).take (j - i) := by
    nth_rewrite 1 [show j = i + (j - i) by omega]
    rw [List.take_add]
  have hdrop : rows.drop i = rows[i] :: rows.drop (i + 1) := List.drop_eq_getElem_cons hi
  have hji : j - i = (j - i - 1) + 1 := by omega
  rw [hsplit, List.filter_append, List.length_append, hdrop, hji, List.take_succ_cons,
    List.filter_cons, if_pos hP, List.length_cons]
  omega

theorem rankedRows_pairwise (rows : List SnapRow) :
    (rankedRows rows).Pairwise fun a b => sameFrameGroup a.1 b.1 = true → a.2 < b.2 := by
  rw [List.pairwise_iff_getElem]
  intro i j hi hj hij
  rw [rankedRows_length] at hi hj
  have hi2 : i < (rankedRows rows).length := by rw [rankedRows_length]; exact hi
  have hj2 : j < (rankedRows rows).length := by rw [rankedRows_length]; exact hj
  rw [rankedRows_getElem rows i hi hi2, rankedRows_getElem rows j hj hj2]
  intro hgroup
  have hPeq : (fun s => sameFrameGroup s rows[i]) = fun s => sameFrameGroup s rows[j] := by
    funext s
    unfold sameFrameGroup at hgroup ⊢
    rw [Bool.and_eq_true, beq_iff_eq, beq_iff_eq] at hgroup
    rw [hgroup.1, hgroup.2]
  have hcnt := count_take_lt rows (fun s => sameFrameGroup s rows[j]) i j hij
    (le_of_lt hj) hi hgroup
  rw [hPeq]
  omega

theorem mem_rankedRows_fst {rows : List SnapRow} {c : SnapRow × Nat}
    (h : c ∈ rankedRows rows) : c.1 ∈ rows := by
  unfold rankedRows at h
  obtain ⟨x, hmem, hc⟩ := List.mem_map.mp h
  obtain ⟨hlt, hx⟩ := List.mem_enum hmem
  rw [← hc]
  rw [hx]
  exact List.getElem_mem hlt

theorem queuePosRow_eq_nowrap {posdf : List Stage} {gapE gapR : Int} {c : SnapRow × Nat}
    {s : Stage} (hs : lookupStage posdf c.1.entry.event = some s) :
    queuePosRow posdf none gapE gapR c =
      ⟨c.1, c.2, some (s.x - (c.2 : Int) * gapE), some s.y⟩ := by
  unfold queuePosRow
  rw [hs]

theorem queuePosRow_eq_wrap {posdf : List Stage} {gapE gapR : Int} {w : Nat}
    {c : SnapRow × Nat} {s : Stage} (hs : lookupStage posdf c.1.entry.event = some s) :
    queuePosRow posdf (some w) gapE gapR c =
      ⟨c.1, c.2,
        some (s.x - (c.2 : Int) * gapE + (w : Int) * ((c.2 / (w + 1) : Nat) : Int) * gapE),
        some (s.y + ((c.2 / (w + 1) : Nat) : Int) * gapR)⟩ := by
  unfold queuePosRow
  rw [hs]

theorem queuePosRow_eq_none {posdf : List Stage} {wrap : Option Nat} {gapE gapR : Int}
    {c : SnapRow × Nat} (hs : lookupStage posdf c.1.entry.event = none) :
    queuePosRow posdf wrap gapE gapR c = ⟨c.1, c.2, none, none⟩ := by
  unfold queuePosRow
  rw [hs]

theorem resourcePosRow_eq {posdf : List Stage} {gapRes : Int} {c : SnapRow × Nat}
    {s : Stage} (hs : lookupStage posdf c.1.entry.event = some s) :
    resourcePosRow posdf gapRes c =
      ⟨c.1, c.2, c.1.entry.resource_id.map fun i => s.x - i * gapRes, some s.y⟩ := by
  unfold resourcePosRow
  rw [hs]

theorem mem_animate_iff {log : List Entry} {posdf : List Stage} {Δ H : Nat}
    {wrap : Option Nat} {gapE gapR gapRes : Int} {pr : PosRow} :
    pr ∈ animate_activity_log log posdf Δ H wrap gapE gapR gapRes ↔
      (∃ c ∈ rankedRows (reshape_for_animations log Δ H),
        c.1.entry.event_type = "queue" ∧ pr = queuePosRow posdf wrap gapE gapR c) ∨
      (∃ c ∈ rankedRows (reshape_for_animations log Δ H),
        c.1.entry.event_type = "resource_use" ∧ pr = resourcePosRow posdf gapRes c) := by
  unfold animate_activity_log
  rw [List.mem_append]
  constructor
  · rintro (h | h)
    · obtain ⟨c, hc, hpr⟩ := List.mem_map.mp h
      rw [List.mem_filter, beq_iff_eq] at hc
      exact Or.inl ⟨c, hc.1, hc.2, hpr.symm⟩
    · obtain ⟨c, hc, hpr⟩ := List.mem_map.mp h
      rw [List.mem_filter, beq_iff_eq] at hc
      exact Or.inr ⟨c, hc.1, hc.2, hpr.symm⟩
  · rintro (⟨c, hc, het, hpr⟩ | ⟨c, hc, het, hpr⟩)
    · refine Or.inl (List.mem_map.mpr ⟨c, ?_, hpr.symm⟩)
      rw [List.mem_filter, beq_iff_eq]
      exact ⟨hc, het⟩
    · refine Or.inr (List.mem_map.mpr ⟨c, ?_, hpr.symm⟩)
      rw [List.mem_filter, beq_iff_eq]
      exact ⟨hc, het⟩

theorem queuePosRow_row (posdf : List Stage) (wrap : Option Nat) (gapE gapR : Int)
    (c : SnapRow × Nat) : (queuePosRow posdf wrap gapE gapR c).row = c.1 := by
  unfold queuePosRow
  cases lookupStage posdf c.1.entry.event with
  | none => rfl
  | some s =>
    cases wrap with
    | none => rfl
    | some w => rfl

theorem queuePosRow_rank (posdf : List Stage) (wrap : Option Nat) (gapE gapR : Int)
    (c : SnapRow × Nat) : (queuePosRow posdf wrap gapE gapR c).rank = c.2 := by
  unfold queuePosRow
  cases lookupStage posdf c.1.entry.event with
  | none => rfl
  | some s =>
    cases wrap with
    | none => rfl
    | some w => rfl

theorem resourcePosRow_row (posdf : List Stage) (gapRes : Int) (c : SnapRow × Nat) :
    (resourcePosRow posdf gapRes c).row = c.1 := by
  unfold resourcePosRow
  cases lookupStage posdf c.1.entry.event with
  | none => rfl
  | some s => rfl

theorem resourcePosRow_x_final (posdf : List Stage) (gapRes : Int) (c : SnapRow × Nat) :
    (resourcePosRow posdf gapRes c).x_final =
      (lookupStage posdf c.1.entry.event).bind fun s =>
        c.1.entry.resource_id.map fun i => s.x - i * gapRes := by
  unfold resourcePosRow
  cases lookupStage posdf c.1.entry.event with
  | none => rfl
  | some s => rfl

theorem resourcePosRow_y_final (posdf : List Stage) (gapRes : Int) (c : SnapRow × Nat) :
    (resourcePosRow posdf gapRes c).y_final =
      (lookupStage posdf c.1.entry.event).map fun s => s.y := by
  unfold resourcePosRow
  cases lookupStage posdf c.1.entry.event with
  | none => rfl
  | some s => rfl

/-- C4: a resource-use row is positioned at
`(anchor_x - resource_identity * gap_between_resources, anchor_y)`, so two
resource rows of the same stage with the same resource identity — in any two
frames, whatever else is busy — receive identical final coordinates. -/
theorem C4_resource_slot (log : List Entry) (posdf : List Stage) (Δ H : Nat)
    (wrap : Option Nat) (gapE gapR gapRes : Int) (pr qr : PosRow)
    (hpr : pr ∈ animate_activity_log log posdf Δ H wrap gapE gapR gapRes)
    (hqr : qr ∈ animate_activity_log log posdf Δ H wrap gapE gapR gapRes)
    (hprt : pr.row.entry.event_type = "resource_use")
    (hqrt : qr.row.entry.event_type = "resource_use")
    (hev : pr.row.entry.event = qr.row.entry.event)
    (hrid : pr.row.entry.resource_id = qr.row.entry.resource_id) :
    (∀ s, lookupStage posdf pr.row.entry.event = some s →
      pr.y_final = some s.y ∧
        ∀ i, pr.row.entry.resource_id = some i → pr.x_final = some (s.x - i * gapRes)) ∧
    pr.x_final = qr.x_final ∧ pr.y_final = qr.y_final := by
  rcases mem_animate_iff.mp hpr with ⟨c, hc, het, hpre⟩ | ⟨c, hc, het, hpre⟩
  · exfalso
    rw [hpre, queuePosRow_row] at hprt
    rw [het] at hprt
    exact absurd hprt (by decide)
  rcases mem_animate_iff.mp hqr with ⟨d, hd, hdt, hqre⟩ | ⟨d, hd, hdt, hqre⟩
  · exfalso
    rw [hqre, queuePosRow_row] at hqrt
    rw [hdt] at hqrt
    exact absurd hqrt (by decide)
  have hrowc : pr.row = c.1 := by rw [hpre, resourcePosRow_row]
  have hrowd : qr.row = d.1 := by rw [hqre, resourcePosRow_row]
  refine ⟨?_, ?_, ?_⟩
  · intro s hs
    rw [hrowc] at hs
    constructor
    · rw [hpre, resourcePosRow_y_final, hs]
      rfl
    · intro i hi
      rw [hrowc] at hi
      rw [hpre, resourcePosRow_x_final, hs, hi]
      rfl
  · rw [hpre, hqre, resourcePosRow_x_final, resourcePosRow_x_final]
    rw [hrowc, hrowd] at hev hrid
    rw [hev, hrid]
  · rw [hpre, hqre, resourcePosRow_y_final, resourcePosRow_y_final]
    rw [hrowc, hrowd] at hev
    rw [hev]

/-- C7 (amended): only rows with `event_type` equal to `queue` or
`resource_use` reach the positioned output — every emitted row is of one of
these two kinds, every ranked row of these kinds is emitted, and rows of any
other event type (in particular the point-like `arrival_departure` rows) are
dropped rather than passed through at their anchor coordinates. -/
theorem C7_only_queue_and_resource (log : List Entry) (posdf : List Stage) (Δ H : Nat)
    (wrap : Option Nat) (gapE gapR gapRes : Int) :
    (∀ pr ∈ animate_activity_log log posdf Δ H wrap gapE gapR gapRes,
      pr.row.entry.event_type = "queue" ∨ pr.row.entry.event_type = "resource_use") ∧
    (∀ c ∈ rankedRows (reshape_for_animations log Δ H),
      (c.1.entry.event_type = "queue" →
        queuePosRow posdf wrap gapE gapR c ∈
          animate_activity_log log posdf Δ H wrap gapE gapR gapRes) ∧
      (c.1.entry.event_type = "resource_use" →
        resourcePosRow posdf gapRes c ∈
          animate_activity_log log posdf Δ H wrap gapE gapR gapRes)) := by
  constructor
  · intro pr hpr
    rcases mem_animate_iff.mp hpr with ⟨c, -, het, hpre⟩ | ⟨c, -, het, hpre⟩
    · left
      rw [hpre, queuePosRow_row]
      exact het
    · right
      rw [hpre, resourcePosRow_row]
      exact het
  · intro c hc
    constructor
    · intro het
      exact mem_animate_iff.mpr (Or.inl ⟨c, hc, het, rfl⟩)
    · intro het
      exact mem_animate_iff.mpr (Or.inr ⟨c, hc, het, rfl⟩)

/-- C8 (amended): a `resource_use` entry lacking its `resource_identity` is
not detected, skipped or reported — its row stays in the positioned output
with an undefined (`NaN`, here `none`) `x_final`, while every other entry is
processed normally. -/
theorem C8_missing_resource_id_kept (log : List Entry) (posdf : List Stage) (Δ H : Nat)
    (wrap : Option Nat) (gapE gapR gapRes : Int) :
    ∀ c ∈ rankedRows (reshape_for_animations log Δ H),
      c.1.entry.event_type = "resource_use" →
        resourcePosRow posdf gapRes c ∈
          animate_activity_log log posdf Δ H wrap gapE gapR gapRes ∧
        (c.1.entry.resource_id = none → (resourcePosRow posdf gapRes c).x_final = none) := by
  intro c hc het
  constructor
  · exact mem_animate_iff.mpr (Or.inr ⟨c, hc, het, rfl⟩)
  · intro hrid
    rw [resourcePosRow_x_final, hrid]
    cases lookupStage posdf c.1.entry.event with
    | none => rfl
    | some s => rfl

/-- C3 (amended): under `wrap_queues_at = w`, a queue row of rank `r` lands on
visual row `⌊r / (w+1)⌋` — not `⌊r / w⌋` — with
`x_final = anchor_x - r*gap + w*row*gap` and `y_final = anchor_y + row*gap_rows`;
with `w = 3` a queue of 7 therefore puts ranks 1,2,3 on row 0 and ranks
4,5,6,7 on row 1, and a rank's coordinates depend on nothing but the rank
itself. -/
theorem C3_queue_wrap_amended (log : List Entry) (posdf : List Stage) (Δ H w : Nat)
    (gapE gapR gapRes : Int) (pr : PosRow) (s : Stage)
    (hpr : pr ∈ animate_activity_log log posdf Δ H (some w) gapE gapR gapRes)
    (ht : pr.row.entry.event_type = "queue")
    (hs : lookupStage posdf pr.row.entry.event = some s) :
    pr.x_final = some (s.x - (pr.rank : Int) * gapE +
      (w : Int) * ((pr.rank / (w + 1) : Nat) : Int) * gapE) ∧
    pr.y_final = some (s.y + ((pr.rank / (w + 1) : Nat) : Int) * gapR) := by
  rcases mem_animate_iff.mp hpr with ⟨c, hc, het, hpre⟩ | ⟨c, hc, het, hpre⟩
  · subst hpre
    rw [queuePosRow_row] at hs
    rw [queuePosRow_eq_wrap hs]
    exact ⟨rfl, rfl⟩
  · exfalso
    rw [hpre, resourcePosRow_row] at ht
    rw [het] at ht
    exact absurd ht (by decide)

theorem queuePos_distinct {s : Stage} {wrap : Option Nat} {gapE gapR : Int}
    (hE : 0 < gapE) (hR : 0 < gapR) {posdf : List Stage} {c1 c2 : SnapRow × Nat}
    (hr : c1.2 < c2.2)
    (hs1 : lookupStage posdf c1.1.entry.event = some s)
    (hs2 : lookupStage posdf c2.1.entry.event = some s) :
    ¬((queuePosRow posdf wrap gapE gapR c1).x_final =
        (queuePosRow posdf wrap gapE gapR c2).x_final ∧
      (queuePosRow posdf wrap gapE gapR c1).y_final =
        (queuePosRow posdf wrap gapE gapR c2).y_final) := by
  cases wrap with
  | none =>
    rw [queuePosRow_eq_nowrap hs1, queuePosRow_eq_nowrap hs2]
    rintro ⟨hx, -⟩
    simp only [Option.some.injEq] at hx
    have hAB : (c1.2 : Int) * gapE = (c2.2 : Int) * gapE := by linarith
    have h2 := mul_right_cancel₀ (ne_of_gt hE) hAB
    have h3 := Nat.cast_inj.mp h2
    omega
  | some w =>
    rw [queuePosRow_eq_wrap hs1, queuePosRow_eq_wrap hs2]
    rintro ⟨hx, hy⟩
    simp only [Option.some.injEq] at hx hy
    by_cases hrow : c1.2 / (w + 1) = c2.2 / (w + 1)
    · rw [hrow] at hx
      have hAB : (c1.2 : Int) * gapE = (c2.2 : Int) * gapE := by linarith
      have h2 := mul_right_cancel₀ (ne_of_gt hE) hAB
      have h3 := Nat.cast_inj.mp h2
      omega
    · have hAB : ((c1.2 / (w + 1) : Nat) : Int) * gapR =
          ((c2.2 / (w + 1) : Nat) : Int) * gapR := by linarith
      have h2 := mul_right_cancel₀ (ne_of_gt hR) hAB
      exact hrow (Nat.cast_inj.mp h2)

/-- C5: within each `(event, minute)` group of queue rows whose stage is
configured, the emitted `(x_final, y_final)` pairs are pairwise distinct, for
any `wrap_queues_at` setting (absent, or any value) and any positive spacing
constants. -/
theorem C5_queue_nonoverlap (log : List Entry) (posdf : List Stage) (Δ H : Nat)
    (wrap : Option Nat) (gapE gapR gapRes : Int) (ev : String) (m : Nat) (s : Stage)
    (hE : 0 < gapE) (hR : 0 < gapR) (hs : lookupStage posdf ev = some s) :
    ((animate_activity_log log posdf Δ H wrap gapE gapR gapRes).filter fun pr =>
      pr.row.entry.event_type == "queue" && pr.row.entry.event == ev &&
        pr.row.minute == m).Pairwise
      fun a b => ¬(a.x_final = b.x_final ∧ a.y_final = b.y_final) := by
  unfold animate_activity_log
  rw [List.filter_append]
  have hres : (((rankedRows (reshape_for_animations log Δ H)).filter fun c =>
      c.1.entry.event_type == "resource_use").map (resourcePosRow posdf gapRes)).filter
      (fun pr => pr.row.entry.event_type == "queue" && pr.row.entry.event == ev &&
        pr.row.minute == m) = [] := by
    rw [List.filter_eq_nil_iff]
    intro x hx hPx
    obtain ⟨c, hc, hcx⟩ := List.mem_map.mp hx
    rw [List.mem_filter, beq_iff_eq] at hc
    rw [Bool.and_eq_true, Bool.and_eq_true, beq_iff_eq] at hPx
    have hxr : x.row = c.1 := by rw [← hcx, resourcePosRow_row]
    have := hPx.1.1
    rw [hxr, hc.2] at this
    exact absurd this (by decide)
  rw [hres, List.append_nil, List.filter_map, List.pairwise_map]
  have hpw : (((rankedRows (reshape_for_animations log Δ H)).filter fun c =>
      c.1.entry.event_type == "queue").filter
        ((fun pr => pr.row.entry.event_type == "queue" && pr.row.entry.event == ev &&
          pr.row.minute == m) ∘ queuePosRow posdf wrap gapE gapR)).Pairwise
      fun a b => sameFrameGroup a.1 b.1 = true → a.2 < b.2 :=
    List.Pairwise.sublist
      ((List.filter_sublist _).trans (List.filter_sublist _))
      (rankedRows_pairwise (reshape_for_animations log Δ H))
  refine List.Pairwise.imp_of_mem ?_ hpw
  intro c d hcm hdm hcd
  rw [List.mem_filter] at hcm hdm
  have hcf := hcm.2
  have hdf := hdm.2
  simp only [Function.comp, queuePosRow_row, Bool.and_eq_true, beq_iff_eq] at hcf hdf
  have hgrp : sameFrameGroup c.1 d.1 = true := by
    unfold sameFrameGroup
    rw [Bool.and_eq_true, beq_iff_eq, beq_iff_eq]
    exact ⟨by rw [hcf.1.2, hdf.1.2], by rw [hcf.2, hdf.2]⟩
  have hrank : c.2 < d.2 := hcd hgrp
  have hs1 : lookupStage posdf c.1.entry.event = some s := by rw [hcf.1.2]; exact hs
  have hs2 : lookupStage posdf d.1.entry.event = some s := by rw [hdf.1.2]; exact hs
  exact queuePos_distinct hE hR hrank hs1 hs2

theorem flatten_replicate_length (k : Nat) (palette : List String) :
    (List.replicate k palette).flatten.length = k * palette.length := by
  induction k with
  | zero => simp
  | succ k ih =>
    rw [List.replicate_succ, List.flatten_cons, List.length_append, ih]
    ring

theorem full_icon_list_length {palette : List String} (hpal : palette ≠ []) (n : Nat) :
    (full_icon_list palette n).length = n := by
  have hL : 0 < palette.length := List.length_pos.mpr hpal
  unfold full_icon_list
  rw [List.length_take, flatten_replicate_length]
  have hdm := Nat.div_add_mod (n + palette.length - 1) palette.length
  rw [Nat.mul_comm] at hdm
  have hmod : (n + palette.length - 1) % palette.length < palette.length :=
    Nat.mod_lt _ hL
  have hge : n ≤ ((n + palette.length - 1) / palette.length) * palette.length := by omega
  exact min_eq_left hge

theorem flatten_replicate_getElem {palette : List String} (hL : 0 < palette.length) :
    ∀ k i, i < k * palette.length →
      ((List.replicate k palette).flatten)[i]? = palette[i % palette.length]? := by
  intro k
  induction k with
  | zero => intro i hi; exact absurd hi (by omega)
  | succ k ih =>
    intro i hi
    rw [List.replicate_succ, List.flatten_cons, List.getElem?_append]
    by_cases hiL : i < palette.length
    · rw [if_pos hiL, Nat.mod_eq_of_lt hiL]
    · rw [if_neg hiL]
      have hLe : palette.length ≤ i := le_of_not_lt hiL
      have hlt : i - palette.length < k * palette.length := by
        have : (k + 1) * palette.length = k * palette.length + palette.length := by ring
        omega
      rw [ih (i - palette.length) hlt]
      congr 1
      conv_rhs => rw [show i = (i - palette.length) + palette.length by omega]
      rw [Nat.add_mod_right]

theorem full_icon_list_getElem {palette : List String} (hpal : palette ≠ []) {n i : Nat}
    (hi : i < n) :
    (full_icon_list palette n)[i]? = palette[i % palette.length]? := by
  have hL : 0 < palette.length := List.length_pos.mpr hpal
  unfold full_icon_list
  rw [List.getElem?_take, if_pos hi]
  apply flatten_replicate_getElem hL
  have hdm := Nat.div_add_mod (n + palette.length - 1) palette.length
  rw [Nat.mul_comm] at hdm
  have hmod : (n + palette.length - 1) % palette.length < palette.length :=
    Nat.mod_lt _ hL
  omega

theorem lookup_zip_nodup :
    ∀ (ks : List Nat) (vs : List String), ks.Nodup →
      ∀ i, ∀ hik : i < ks.length, i < vs.length →
        (ks.zip vs).lookup ks[i] = vs[i]? := by
  intro ks
  induction ks with
  | nil => intro vs _ i hik _; exact absurd hik (by simp)
  | cons k ks ih =>
    intro vs hnd i hik hiv
    cases vs with
    | nil => exact absurd hiv (by simp)
    | cons v vs =>
      rw [List.nodup_cons] at hnd
      cases i with
      | zero => simp [List.zip_cons_cons, List.lookup]
      | succ i =>
        rw [List.zip_cons_cons]
        have hik2 : i < ks.length := by
          rw [List.length_cons] at hik
          omega
        have hiv2 : i < vs.length := by
          rw [List.length_cons] at hiv
          omega
        have hks : (k :: ks)[i + 1] = ks[i] := List.getElem_cons_succ k ks i hik
        rw [hks]
        have hne : (ks[i] == k) = false := by
          rw [beq_eq_false_iff_ne]
          intro hkk
          exact hnd.1 (hkk ▸ List.getElem_mem hik2)
        rw [List.getElem?_cons_succ]
        rw [show ((k, v) :: ks.zip vs).lookup ks[i] = (ks.zip vs).lookup ks[i] by
          simp [List.lookup, hne]]
        exact ih vs hnd.2 i hik2 hiv2

theorem individual_patients_nodup (rows : List SnapRow) :
    (individual_patients rows).Nodup := by
  unfold individual_patients
  exact ((List.perm_insertionSort _ _).nodup_iff).mpr
    (List.nodup_dedup (rows.map fun r => r.entry.patient))

theorem individual_patients_eq_of_perm {rows rows' : List SnapRow}
    (h : ((rows.map fun r => r.entry.patient).dedup).Perm
      ((rows'.map fun r => r.entry.patient).dedup)) :
    individual_patients rows = individual_patients rows' := by
  unfold individual_patients
  have h1 : List.Sorted (fun a b => a ≤ b)
      (((rows.map fun r => r.entry.patient).dedup).insertionSort fun a b => a ≤ b) :=
    List.sorted_insertionSort _ _
  have h2 : List.Sorted (fun a b => a ≤ b)
      (((rows'.map fun r => r.entry.patient).dedup).insertionSort fun a b => a ≤ b) :=
    List.sorted_insertionSort _ _
  have hperm := (List.perm_insertionSort (fun a b => a ≤ b)
      ((rows.map fun r => r.entry.patient).dedup)).trans
    (h.trans (List.perm_insertionSort (fun a b => a ≤ b)
      ((rows'.map fun r => r.entry.patient).dedup)).symm)
  exact List.eq_of_perm_of_sorted hperm h1 h2

theorem icon_of_sorted_index {palette : List String} (hpal : palette ≠ [])
    (rows : List SnapRow) (i : Fin (individual_patients rows).length) :
    icon_of palette rows ((individual_patients rows).get i) =
      palette[(i : Nat) % palette.length]? := by
  unfold icon_of
  have hv : (i : Nat) < (full_icon_list palette (individual_patients rows).length).length := by
    rw [full_icon_list_length hpal]
    exact i.isLt
  rw [List.get_eq_getElem]
  rw [lookup_zip_nodup (individual_patients rows)
    (full_icon_list palette (individual_patients rows).length)
    (individual_patients_nodup rows) i i.isLt hv]
  exact full_icon_list_getElem hpal i.isLt

/-- C9 (amended): each distinct entity is mapped to exactly one palette icon,
reused on every output row of that entity, the palette being cycled; the
assignment is a pure function of the set of distinct entity ids — but the
palette position is the entity's position in the *ascending sorted order* of
the ids, not its order of first appearance in the log. -/
theorem C9_icon_assignment_amended (palette : List String) :
    (∀ rows : List SnapRow, palette ≠ [] →
      ∀ i : Fin (individual_patients rows).length,
        icon_of palette rows ((individual_patients rows).get i) =
          palette[(i : Nat) % palette.length]?) ∧
    (∀ rows rows' : List SnapRow,
      ((rows.map fun r => r.entry.patient).dedup).Perm
        ((rows'.map fun r => r.entry.patient).dedup) →
      ∀ p, icon_of palette rows p = icon_of palette rows' p) ∧
    (∀ (log : List Entry) (posdf : List Stage) (Δ H : Nat) (wrap : Option Nat)
        (gapE gapR gapRes : Int),
      ∀ pri ∈ animate_with_icons palette log posdf Δ H wrap gapE gapR gapRes,
        icon_of palette (reshape_for_animations log Δ H) pri.1.row.entry.patient =
          some pri.2) := by
  refine ⟨?_, ?_, ?_⟩
  · intro rows hpal i
    exact icon_of_sorted_index hpal rows i
  · intro rows rows' h p
    unfold icon_of
    rw [individual_patients_eq_of_perm h]
  · intro log posdf Δ H wrap gapE gapR gapRes pri hpri
    unfold animate_with_icons at hpri
    obtain ⟨pr, hpr, hmap⟩ := List.mem_filterMap.mp hpri
    rw [Option.map_eq_some'] at hmap
    obtain ⟨ic, hic, hpic⟩ := hmap
    rw [← hpic]
    exact hic

/-- Seven entities queueing at the same stage at the same instant. -/
def C3log : List Entry :=
  (List.range 7).flatMap fun k =>
    [⟨k + 1, "pw", "arrival_departure", "arrival", 0, none⟩,
     ⟨k + 1, "pw", "queue", "wait", 0, none⟩,
     ⟨k + 1, "pw", "arrival_departure", "depart", 100, none⟩]

def C3posdf : List Stage := [⟨"wait", 500, 50⟩]

/-- C3 (counterexample): with `wrap_at = 3` and a queue of 7, the rank-7
entity sits on visual row 1 (`y_final = 50 + 1*30 = 80`), not on row 2
(`y_final = 50 + 2*30 = 110`) as the claim's `row = ⌊rank / wrap_at⌋` formula
and its example demand. -/
theorem C3_counterexample :
    (∃ pr ∈ animate_activity_log C3log C3posdf 1 1 (some 3) 10 30 10,
      pr.row.entry.event = "wait" ∧ pr.rank = 7 ∧ pr.y_final = some 80) ∧
    (∀ pr ∈ animate_activity_log C3log C3posdf 1 1 (some 3) 10 30 10,
      pr.row.entry.event = "wait" → pr.rank = 7 → pr.y_final ≠ some (50 + 2 * 30)) := by
  decide

/-- The rank-7 positioned row of the seven-entity queue. -/
def C3row7 : PosRow := ⟨⟨⟨7, "pw", "queue", "wait", 0, none⟩, 0⟩, 7, some 460, some 80⟩

theorem C3_queue_wrap_amended_witness :
    C3row7 ∈ animate_activity_log C3log C3posdf 1 1 (some 3) 10 30 10 ∧
    C3row7.row.entry.event_type = "queue" ∧
    lookupStage C3posdf C3row7.row.entry.event = some ⟨"wait", 500, 50⟩ ∧
    (∀ pr ∈ animate_activity_log C3log C3posdf 1 1 (some 3) 10 30 10,
      pr.row.entry.event = "wait" → pr.rank ≤ 3 → pr.y_final = some 50) ∧
    (C3row7.x_final = some (500 - (C3row7.rank : Int) * 10 +
        ((3 : Nat) : Int) * ((C3row7.rank / (3 + 1) : Nat) : Int) * 10) ∧
      C3row7.y_final = some (50 + ((C3row7.rank / (3 + 1) : Nat) : Int) * 30)) :=
  ⟨by decide, by decide, by decide, by decide,
    C3_queue_wrap_amended C3log C3posdf 1 1 3 10 30 10 C3row7 ⟨"wait", 500, 50⟩
      (by decide) (by decide) (by decide)⟩

theorem C5_queue_nonoverlap_witness :
    (0 : Int) < 10 ∧ (0 : Int) < 30 ∧
    lookupStage C3posdf "wait" = some ⟨"wait", 500, 50⟩ ∧
    ((animate_activity_log C3log C3posdf 1 1 (some 3) 10 30 10).filter fun pr =>
      pr.row.entry.event_type == "queue" && pr.row.entry.event == "wait" &&
        pr.row.minute == 0).Pairwise
      (fun a b => ¬(a.x_final = b.x_final ∧ a.y_final = b.y_final)) :=
  ⟨by decide, by decide, by decide,
    C5_queue_nonoverlap C3log C3posdf 1 1 (some 3) 10 30 10 "wait" 0 ⟨"wait", 500, 50⟩
      (by decide) (by decide) (by decide)⟩

/-- Two entities, one resource-use entry lacking its `resource_id`. -/
def C8log : List Entry :=
  [⟨1, "pw", "arrival_departure", "arrival", 0, none⟩,
   ⟨1, "pw", "resource_use", "treatA", 0, none⟩,
   ⟨1, "pw", "arrival_departure", "depart", 9, none⟩,
   ⟨2, "pw", "arrival_departure", "arrival", 0, none⟩,
   ⟨2, "pw", "resource_use", "treatB", 0, some 1⟩,
   ⟨2, "pw", "arrival_departure", "depart", 9, none⟩]

def C8posdf : List Stage := [⟨"treatA", 200, 40⟩, ⟨"treatB", 300, 40⟩]

/-- C8 (counterexample): the malformed `resource_use` entry (no
`resource_identity`) is *not* skipped: its row reaches the positioned output
(with an undefined `x_final`), so no error is raised for it, no row is
dropped, and no skip report exists anywhere in the engine. -/
theorem C8_counterexample :
    ∃ pr ∈ animate_activity_log C8log C8posdf 1 1 none 10 30 10,
      pr.row.entry.event = "treatA" ∧ pr.row.entry.resource_id = none ∧
        pr.x_final = none := by
  decide

/-- The ranked snapshot row of the malformed resource entry. -/
def C8cell : SnapRow × Nat := (⟨⟨1, "pw", "resource_use", "treatA", 0, none⟩, 0⟩, 1)

theorem C8_missing_resource_id_kept_witness :
    C8cell ∈ rankedRows (reshape_for_animations C8log 1 1) ∧
    C8cell.1.entry.event_type = "resource_use" ∧
    resourcePosRow C8posdf 10 C8cell ∈
      animate_activity_log C8log C8posdf 1 1 none 10 30 10 ∧
    (resourcePosRow C8posdf 10 C8cell).x_final = none :=
  ⟨by decide, by decide,
    (C8_missing_resource_id_kept C8log C8posdf 1 1 none 10 30 10 C8cell
      (by decide) (by decide)).1,
    (C8_missing_resource_id_kept C8log C8posdf 1 1 none 10 30 10 C8cell
      (by decide) (by decide)).2 (by decide)⟩

/-- The two positioned frames of the well-formed resource entry `treatB`
(minutes 0 and 1). -/
def C4row0 : PosRow :=
  ⟨⟨⟨2, "pw", "resource_use", "treatB", 0, some 1⟩, 0⟩, 1, some 290, some 40⟩

def C4row1 : PosRow :=
  ⟨⟨⟨2, "pw", "resource_use", "treatB", 0, some 1⟩, 1⟩, 1, some 290, some 40⟩

theorem C4_resource_slot_witness :
    C4row0 ∈ animate_activity_log C8log C8posdf 1 2 none 10 30 10 ∧
    C4row1 ∈ animate_activity_log C8log C8posdf 1 2 none 10 30 10 ∧
    C4row0.row.entry.event_type = "resource_use" ∧
    ((∀ s, lookupStage C8posdf C4row0.row.entry.event = some s →
      C4row0.y_final = some s.y ∧
        ∀ i, C4row0.row.entry.resource_id = some i →
          C4row0.x_final = some (s.x - i * 10)) ∧
      C4row0.x_final = C4row1.x_final ∧ C4row0.y_final = C4row1.y_final) :=
  ⟨by decide, by decide, by decide,
    C4_resource_slot C8log C8posdf 1 2 none 10 30 10 C4row0 C4row1
      (by decide) (by decide) (by decide) (by decide) (by decide) (by decide)⟩

def C7posdf : List Stage := [⟨"arrival", 10, 20⟩]

/-- C7 (counterexample): a point-like row (`event_type = arrival_departure`)
that is present in the snapshot and whose stage has anchor coordinates
configured does not pass through to the positioned output at
`(anchor_x, anchor_y)` — the output drops it entirely. -/
theorem C7_counterexample :
    (∃ row ∈ sweepRows C1log 1 1, row.entry.event = "arrival" ∧
      row.entry.event_type = "arrival_departure") ∧
    lookupStage C7posdf "arrival" = some ⟨"arrival", 10, 20⟩ ∧
    animate_activity_log C1log C7posdf 1 1 none 10 30 10 = [] := by
  decide

/-- A one-patient log whose latest minute-0 event is the queue entry
`waitB`. -/
def C9alog : List Entry :=
  [⟨1, "pw", "arrival_departure", "arrival", 0, none⟩,
   ⟨1, "pw", "queue", "waitA", 0, none⟩,
   ⟨1, "pw", "queue", "waitB", 0, none⟩,
   ⟨1, "pw", "arrival_departure", "depart", 9, none⟩]

def C9aposdf : List Stage := [⟨"waitB", 100, 50⟩]

/-- The positioned `waitB` row of `C9alog`. -/
def C9arow : PosRow := ⟨⟨⟨1, "pw", "queue", "waitB", 0, none⟩, 0⟩, 1, some 90, some 50⟩

/-- The ranked `waitB` snapshot row of `C9alog`. -/
def C7cell : SnapRow × Nat := (⟨⟨1, "pw", "queue", "waitB", 0, none⟩, 0⟩, 1)

theorem C7_only_queue_and_resource_witness :
    C9arow ∈ animate_activity_log C9alog C9aposdf 1 1 none 10 30 10 ∧
    (C9arow.row.entry.event_type = "queue" ∨
      C9arow.row.entry.event_type = "resource_use") ∧
    C7cell ∈ rankedRows (reshape_for_animations C9alog 1 1) ∧
    queuePosRow C9aposdf none 10 30 C7cell ∈
      animate_activity_log C9alog C9aposdf 1 1 none 10 30 10 :=
  ⟨by decide,
    (C7_only_queue_and_resource C9alog C9aposdf 1 1 none 10 30 10).1 C9arow (by decide),
    by decide,
    ((C7_only_queue_and_resource C9alog C9aposdf 1 1 none 10 30 10).2 C7cell
      (by decide)).1 (by decide)⟩

/-- A log whose entities first appear in the order 2, 1. -/
def C9log : List Entry :=
  [⟨2, "pw", "arrival_departure", "arrival", 0, none⟩,
   ⟨2, "pw", "arrival_departure", "depart", 9, none⟩,
   ⟨1, "pw", "arrival_departure", "arrival", 0, none⟩,
   ⟨1, "pw", "arrival_departure", "depart", 9, none⟩]

def C9palette : List String := ["A", "B"]

/-- C9 (counterexample): entity 2 appears first in the log, so under the
claimed first-appearance rule it would receive the first palette entry `"A"`;
the implementation sorts the distinct ids and hands entity 2 the second
entry `"B"`. -/
theorem C9_counterexample :
    icon_of C9palette (reshape_for_animations C9log 1 1) 2 = some "B" ∧
    icon_of_by_first_appearance C9palette (reshape_for_animations C9log 1 1) 2 =
      some "A" := by
  decide

/-- The icon-joined `waitB` row of `C9alog`. -/
def C9pri : PosRow × String :=
  (⟨⟨⟨1, "pw", "queue", "waitB", 0, none⟩, 0⟩, 1, some 90, some 50⟩, "A")

theorem C9_icon_assignment_amended_witness :
    C9palette ≠ [] ∧
    icon_of C9palette (reshape_for_animations C9log 1 1)
      ((individual_patients (reshape_for_animations C9log 1 1)).get ⟨0, by decide⟩) =
      C9palette[(0 : Nat) % C9palette.length]? ∧
    icon_of C9palette
      [⟨⟨2, "pw", "queue", "q", 0, none⟩, 0⟩, ⟨⟨1, "pw", "queue", "q", 0, none⟩, 0⟩] 1 =
      icon_of C9palette
        [⟨⟨1, "pw", "queue", "q", 0, none⟩, 0⟩, ⟨⟨2, "pw", "queue", "q", 0, none⟩, 0⟩] 1 ∧
    icon_of C9palette (reshape_for_animations C9alog 1 1) C9pri.1.row.entry.patient =
      some C9pri.2 :=
  ⟨by decide,
    (C9_icon_assignment_amended C9palette).1 _ (by decide) ⟨0, by decide⟩,
    (C9_icon_assignment_amended C9palette).2.1
      [⟨⟨2, "pw", "queue", "q", 0, none⟩, 0⟩, ⟨⟨1, "pw", "queue", "q", 0, none⟩, 0⟩]
      [⟨⟨1, "pw", "queue", "q", 0, none⟩, 0⟩, ⟨⟨2, "pw", "queue", "q", 0, none⟩, 0⟩]
      (List.Perm.swap 1 2 []) 1,
    (C9_icon_assignment_amended C9palette).2.2 C9alog C9aposdf 1 1 none 10 30 10 C9pri
      (by decide)⟩
